import Mathlib

/-!
Verification development for the queue core in sonya/src/queue/map.rs.

Strings (queue names, event keys) are modelled as their UTF-8 byte lists
(List Nat), since the source only ever uses them via as_bytes, equality and
ordering.  The sled trees are modelled as association lists from storage key
(byte list) to the stored event; sled iterates keys in lexicographic byte
order, so a tree that is sorted by that order models sled iteration order
directly, and insertion is order-preserving.  MessagePack serialization is
modelled as the identity (values are stored as events), so encode and decode
errors cannot arise in the model.  Broadcast channels are modelled by the
list of messages sent into them.
-/

abbrev Key := List Nat

/-- Lexicographic strict order on byte strings, as used by sled for its keys. -/
def keyLt : Key → Key → Bool
  | _, [] => false
  | [], _ :: _ => true
  | a :: as, b :: bs => if a < b then true else if b < a then false else keyLt as bs

/-- Inclusive lexicographic order, used for the lower end of a range scan. -/
def keyLe (a b : Key) : Bool := keyLt a b || decide (a = b)

/-- Big-endian digits of n, w bytes wide: models u64::to_be_bytes for w = 8. -/
def beDigits : Nat → Nat → Key
  | 0, _ => []
  | w + 1, n => n / 256 ^ w % 256 :: beDigits w n

/-- Models u64::to_be_bytes. -/
def be64 (n : Nat) : Key := beDigits 8 n

def u64size : Nat := 2 ^ 64

/-- Largest u64 value, u64::MAX. -/
def u64MAX : Nat := 2 ^ 64 - 1

/-- Models <u64>::from_be_bytes(v.try_into()?): succeeds exactly on 8-byte values. -/
def fromBe64 (l : Key) : Option Nat :=
  if l.length = 8 ∧ l.all (· < 256) then some (l.foldl (fun a b => a * 256 + b) 0) else none

/-- Models u64::checked_add(1). -/
def checked_add_one (n : Nat) : Option Nat := if n + 1 < u64size then some (n + 1) else none

/-- Models NonZeroU64::new (SequenceId::new in sonya_meta). -/
def SequenceId.new (n : Nat) : Option Nat := if n = 0 then none else some n

/-- Modelled from the spec: the payload capability surface of the event type of
sonya_meta::message (the crate is not under src).  The core reads the key, reads
and writes the optional sequence, and writes the terminal flag; the body is
otherwise opaque and stands for the rest of the payload. -/
structure Event where
  id : Key
  sequence : Option Nat
  last : Bool
  body : Key
deriving DecidableEq

abbrev QTree := List (Key × Event)

/-- First-match association-list lookup. -/
def alookup {α : Type} : List (Key × α) → Key → Option α
  | [], _ => none
  | (k, v) :: rest, q => if k = q then some v else alookup rest q

/-- Replace the binding of a key, or append a fresh one. -/
def aset {α : Type} : List (Key × α) → Key → α → List (Key × α)
  | [], q, v => [(q, v)]
  | (k, w) :: rest, q, v => if k = q then (q, v) :: rest else (k, w) :: aset rest q v

/-- Drop the binding of a key (models DashMap::remove). -/
def aremove {α : Type} (l : List (Key × α)) (q : Key) : List (Key × α) :=
  l.filter (fun p => decide (p.1 ≠ q))

/-- Order-preserving insert-or-replace into a key-sorted tree (models
sled Tree::insert, and also BTreeMap::insert keyed by the event id). -/
def treeInsert : QTree → Key → Event → QTree
  | [], k, v => [(k, v)]
  | (k₁, v₁) :: rest, k, v =>
    if keyLt k k₁ then (k, v) :: (k₁, v₁) :: rest
    else if k = k₁ then (k, v) :: rest
    else (k₁, v₁) :: treeInsert rest k v

/-- Models sled scan by key prefix (QTree::scan_prefix), in iteration order. -/
def prefixScan (t : QTree) (p : Key) : QTree :=
  t.filter (fun e => List.isPrefixOf p e.1)

/-- Models a sled range scan over storage keys, start inclusive, end exclusive. -/
def rangeScan (t : QTree) (lo hi : Key) : QTree :=
  t.filter (fun e => keyLe lo e.1 && keyLt e.1 hi)

inductive QueueError where
  | Db
  | Encode
  | Decode
  | ZeroSequence
  | SystemQueueName
deriving DecidableEq

structure KeyBroadcast where
  sent : List Event
deriving DecidableEq

structure QueueBroadcast where
  sent : List Event
  keys : List (Key × KeyBroadcast)
deriving DecidableEq

/-- The state of Queue<T>: the sled tree registry with the contents of each
named tree, the contents of the default tree (which holds the sequence
counters), the broadcast-hub registry (queue_meta) and max_key_updates. -/
structure QueueState where
  trees : List Key
  data : List (Key × QTree)
  counters : List (Key × Key)
  queue_meta : List (Key × QueueBroadcast)
  max_key_updates : Option Nat
deriving DecidableEq

inductive RequestSequenceId where
  | Id : Nat → RequestSequenceId
  | Last
  | First
deriving DecidableEq

abbrev RequestSequence := Option RequestSequenceId

structure Subscription where
  stream : Option (Option (List Event))
  preloaded_count : Option Nat
deriving DecidableEq

/-- Default::default() for Subscription: no stream, no preload count. -/
def Subscription.empty : Subscription := { stream := none, preloaded_count := none }

/-- Contents of a named tree (sled returns an empty tree when none was stored). -/
def treeOf (s : QueueState) (q : Key) : QTree := (alookup s.data q).getD []

/-- Models Db::open_tree: registers the tree name if new, returns the contents. -/
def open_tree (s : QueueState) (q : Key) : QueueState × QTree :=
  if q ∈ s.trees then (s, treeOf s q)
  else ({ s with trees := q :: s.trees }, treeOf s q)

/-- Models Queue::check_tree_exists: membership of the name in tree_names(). -/
def check_tree_exists (s : QueueState) (q : Key) : Bool := decide (q ∈ s.trees)

/-- Models Queue::create_queue. -/
def create_queue (s : QueueState) (q : Key) : QueueState × Except QueueError Unit :=
  ((open_tree s q).1, .ok ())

/-- Models get_queue_broadcast: get-or-insert of the hub entry of a queue. -/
def ensure_queue_broadcast (m : List (Key × QueueBroadcast)) (q : Key) :
    List (Key × QueueBroadcast) :=
  match alookup m q with
  | some _ => m
  | none => aset m q { sent := [], keys := [] }

/-- Models queue.keys.remove(&id) on the hub entry of a queue. -/
def hub_remove_key (m : List (Key × QueueBroadcast)) (q id : Key) :
    List (Key × QueueBroadcast) :=
  match alookup m q with
  | none => m
  | some h => aset m q { h with keys := aremove h.keys id }

/-- Models queue.sender.send on the queue-wide channel (creating the hub entry
first, as get_queue_broadcast does). -/
def hub_send_queue (s : QueueState) (q : Key) (v : Event) : QueueState :=
  let m := ensure_queue_broadcast s.queue_meta q
  match alookup m q with
  | none => { s with queue_meta := m }
  | some h => { s with queue_meta := aset m q { h with sent := h.sent ++ [v] } }

/-- Models get_key_broadcast followed by key_sender.sender.send. -/
def hub_send_key (s : QueueState) (q id : Key) (v : Event) : QueueState :=
  let m := ensure_queue_broadcast s.queue_meta q
  match alookup m q with
  | none => { s with queue_meta := m }
  | some h =>
    match alookup h.keys id with
    | some kb => { s with queue_meta := aset m q { h with keys := aset h.keys id { sent := kb.sent ++ [v] } } }
    | none => { s with queue_meta := aset m q { h with keys := aset h.keys id { sent := [v] } } }

/-- Models get_key_broadcast alone (subscription side: create the per-key hub
entry if missing, then subscribe to it). -/
def hub_ensure_key (s : QueueState) (q id : Key) : QueueState :=
  let m := ensure_queue_broadcast s.queue_meta q
  match alookup m q with
  | none => { s with queue_meta := m }
  | some h =>
    match alookup h.keys id with
    | some _ => { s with queue_meta := m }
    | none => { s with queue_meta := aset m q { h with keys := aset h.keys id { sent := [] } } }

/-- Bytes of the reserved counter namespace marker, the UTF-8 of three
characters i, d, underscore. -/
def id_bytes : Key := [105, 100, 95]

/-- The closure passed to update_and_fetch in generate_next_id: decode the old
8-byte value, checked-add one, on absence or overflow fall back to one. -/
def counter_next (old : Option Key) : Nat :=
  ((old.bind fromBe64).bind checked_add_one).getD 1

/-- The bytes written back by the update_and_fetch closure. -/
def counter_update (old : Option Key) : Key :=
  ((((old.bind fromBe64).bind checked_add_one).map be64)).getD (be64 1)

/-- Models Queue::generate_next_id: atomic update of the counter stored in the
default tree under id_bytes ++ queue_name ++ id, then decode of the post-update
value, reporting ZeroSequence when it is not a strictly positive u64. -/
def generate_next_id (s : QueueState) (q id : Key) : QueueState × Except QueueError Nat :=
  let key := id_bytes ++ q ++ id
  let newBytes := counter_update (alookup s.counters key)
  let s₁ := { s with counters := aset s.counters key newBytes }
  match (fromBe64 newBytes).bind SequenceId.new with
  | some n => (s₁, .ok n)
  | none => (s₁, .error .ZeroSequence)

/-- Models the free function get_id: the composite storage key. -/
def get_id (id : Key) (sequence : Nat) : Key := id ++ be64 sequence

/-- Persistence part of send_to_queue (lines 158 to 179 of map.rs): skipped
entirely when max_key_updates is zero; otherwise insert, then under a retention
cap scan the key prefix newest first, skip m - 1 survivors and batch-remove the
rest.  Afterwards the event goes into the queue-wide and per-key channels. -/
def send_core (s : QueueState) (q : Key) (value : Event) (sequence : Nat) :
    QueueState × Except QueueError (Bool × Option Nat) :=
  let s :=
    if s.max_key_updates = some 0 then s
    else
      let storageKey := get_id value.id sequence
      let t := (open_tree s q).2
      let t := treeInsert t storageKey value
      let t :=
        match s.max_key_updates with
        | none => t
        | some m =>
          let removals := ((prefixScan t value.id).reverse.drop (m - 1)).map Prod.fst
          t.filter (fun p => decide (p.1 ∉ removals))
      { s with data := aset s.data q t }
  let s := hub_send_queue s q value
  let s := hub_send_key s q value.id value
  (s, .ok (true, SequenceId.new sequence))

/-- Models Queue::send_to_queue. -/
def send_to_queue (s : QueueState) (q : Key) (value : Event) :
    QueueState × Except QueueError (Bool × Option Nat) :=
  if check_tree_exists s q then
    match value.sequence with
    | none =>
      match generate_next_id s q value.id with
      | (s₁, .ok n) => send_core s₁ q { value with sequence := some n } n
      | (s₁, .error e) => (s₁, .error e)
    | some n => send_core s q value n
  else (s, .ok (false, none))

/-- Models Queue::delete_queue: drop the per-key hub entry, then batch-remove
every storage key with the given prefix from the queue tree. -/
def delete_queue (s : QueueState) (q id : Key) : QueueState × Except QueueError Unit :=
  let qm := hub_remove_key (ensure_queue_broadcast s.queue_meta q) q id
  let s := { s with queue_meta := qm }
  let (s, t) := open_tree s q
  let removals := (prefixScan t id).map Prod.fst
  let t := t.filter (fun p => decide (p.1 ∉ removals))
  ({ s with data := aset s.data q t }, .ok ())

/-- Models extract_sequences: the storage scan selecting the historical events
of one key for a replay mode. -/
def extract_sequences (t : QTree) (sid : RequestSequenceId) (id : Key) : QTree :=
  match sid with
  | .Id s => rangeScan t (get_id id s) (get_id id u64MAX)
  | .Last => (prefixScan t id).reverse.take 1
  | .First => prefixScan t id

/-- Models get_prev_items (deserialization is the identity in the model). -/
def get_prev_items (t : QTree) (id : Key) (sequence : RequestSequence) :
    Option (List Event) :=
  sequence.map (fun sid => (extract_sequences t sid id).map Prod.snd)

/-- Models get_prev_all_items: queue-wide replay over every value of the tree. -/
def get_prev_all_items (t : QTree) (sequence : RequestSequence) : Option (List Event) :=
  sequence.map (fun sid =>
    let i := t.map Prod.snd
    match sid with
    | .Id s =>
      i.filter (fun v =>
        match v.sequence with
        | some cs => decide (s ≤ cs)
        | none => false)
    | .Last => ((i.foldl (fun m v => treeInsert m v.id v) []).map Prod.snd)
    | .First => i)

/-- Models last.set_last(true) on the final element of the historical list. -/
def set_last_on_last : List Event → List Event
  | [] => []
  | [e] => [{ e with last := true }]
  | e :: e₁ :: rest => e :: set_last_on_last (e₁ :: rest)

/-- Models Queue::subscribe_queue_by_id. -/
def subscribe_queue_by_id (s : QueueState) (q id : Key) (sequence : RequestSequence) :
    QueueState × Except QueueError Subscription :=
  if check_tree_exists s q then
    let t := (open_tree s q).2
    let prev := (get_prev_items t id sequence).map set_last_on_last
    let prev_len := prev.map List.length
    let s := { s with queue_meta := ensure_queue_broadcast s.queue_meta q }
    let s := hub_ensure_key s q id
    (s, .ok { stream := some prev, preloaded_count := prev_len })
  else (s, .ok Subscription.empty)

/-- Models Queue::subscribe_queue. -/
def subscribe_queue (s : QueueState) (q : Key) (sequence : RequestSequence) :
    QueueState × Except QueueError Subscription :=
  if check_tree_exists s q then
    let t := (open_tree s q).2
    let prev := (get_prev_all_items t sequence).map set_last_on_last
    let prev_len := prev.map List.length
    let s := { s with queue_meta := ensure_queue_broadcast s.queue_meta q }
    (s, .ok { stream := some prev, preloaded_count := prev_len })
  else (s, .ok Subscription.empty)

/-- Modelled from the spec: the service layer that validates queue names lives
outside src (only the QueueError::SystemQueueName declaration is in map.rs);
per the spec a caller attempting to create or publish to a name matching the
reserved counter namespace marker is rejected with that error. -/
def guard_queue_name (q : Key) : Except QueueError Unit :=
  if List.isPrefixOf id_bytes q then .error .SystemQueueName else .ok ()

/-- Modelled from the spec: create_queue behind the reserved-name validation. -/
def create_queue_guarded (s : QueueState) (q : Key) : QueueState × Except QueueError Unit :=
  match guard_queue_name q with
  | .error e => (s, .error e)
  | .ok _ => create_queue s q

/-- Modelled from the spec: send_to_queue behind the reserved-name validation. -/
def send_to_queue_guarded (s : QueueState) (q : Key) (value : Event) :
    QueueState × Except QueueError (Bool × Option Nat) :=
  match guard_queue_name q with
  | .error e => (s, .error e)
  | .ok _ => send_to_queue s q value

/-- Messages so far sent into the queue-wide channel of a queue. -/
def queue_sent (s : QueueState) (q : Key) : List Event :=
  ((alookup s.queue_meta q).map QueueBroadcast.sent).getD []

/-- Messages so far sent into the per-key channel of a key. -/
def key_sent (s : QueueState) (q id : Key) : List Event :=
  (((alookup s.queue_meta q).bind (fun h => alookup h.keys id)).map KeyBroadcast.sent).getD []

/-- Whether the hub has a per-key entry (a live receiver can be attached). -/
def key_hub_lookup (s : QueueState) (q id : Key) : Option KeyBroadcast :=
  (alookup s.queue_meta q).bind (fun h => alookup h.keys id)

/-! Order lemmas for lexicographic byte-string comparison. -/

theorem keyLt_irrefl (l : Key) : keyLt l l = false := by
  induction l with
  | nil => rfl
  | cons a as ih => simp [keyLt, ih]

theorem keyLt_trans {a b c : Key} (hab : keyLt a b = true) (hbc : keyLt b c = true) :
    keyLt a c = true := by
  induction a generalizing b c with
  | nil =>
    cases c with
    | nil =>
      cases b with
      | nil => exact hab
      | cons y ys => simp [keyLt] at hbc
    | cons z zs => simp [keyLt]
  | cons x xs ih =>
    cases b with
    | nil => simp [keyLt] at hab
    | cons y ys =>
      cases c with
      | nil => simp [keyLt] at hbc
      | cons z zs =>
        simp only [keyLt] at hab hbc ⊢
        by_cases hxy : x < y
        · by_cases hyz : y < z
          · rw [if_pos (by omega)]
          · rw [if_neg hyz] at hbc
            by_cases hzy : z < y
            · rw [if_pos hzy] at hbc; exact Bool.noConfusion hbc
            · have hyzeq : y = z := by omega
              subst hyzeq
              rw [if_pos hxy]
        · rw [if_neg hxy] at hab
          by_cases hyx : y < x
          · rw [if_pos hyx] at hab; exact Bool.noConfusion hab
          · have hxe : x = y := by omega
            subst hxe
            rw [if_neg (by omega : ¬ x < x)] at hab
            by_cases hxz : x < z
            · rw [if_pos hxz]
            · rw [if_neg hxz] at hbc ⊢
              by_cases hzx : z < x
              · rw [if_pos hzx] at hbc; exact Bool.noConfusion hbc
              · rw [if_neg hzx] at hbc ⊢
                exact ih hab hbc

theorem keyLt_cases (a b : Key) : keyLt a b = true ∨ a = b ∨ keyLt b a = true := by
  induction a generalizing b with
  | nil => cases b <;> simp [keyLt]
  | cons x xs ih =>
    cases b with
    | nil => simp [keyLt]
    | cons y ys =>
      rcases Nat.lt_trichotomy x y with h | h | h
      · left; simp [keyLt, h]
      · subst h
        rcases ih ys with h' | h' | h'
        · left; simp [keyLt, h']
        · right; left; rw [h']
        · right; right; simp [keyLt, h']
      · right; right; simp [keyLt, h]

theorem keyLt_asymm {a b : Key} (h : keyLt a b = true) : keyLt b a = false := by
  by_contra hc
  have hba : keyLt b a = true := by
    cases hx : keyLt b a
    · exact absurd hx hc
    · rfl
  have htr := keyLt_trans h hba
  rw [keyLt_irrefl] at htr
  exact Bool.noConfusion htr

theorem keyLt_ne {a b : Key} (h : keyLt a b = true) : a ≠ b := by
  rintro rfl
  rw [keyLt_irrefl] at h
  cases h

theorem keyLt_append (p x y : Key) : keyLt (p ++ x) (p ++ y) = keyLt x y := by
  induction p with
  | nil => rfl
  | cons a as ih => simp [keyLt, ih]

/-! Big-endian encoding lemmas. -/

theorem beDigits_length (w n : Nat) : (beDigits w n).length = w := by
  induction w generalizing n with
  | zero => rfl
  | succ w ih => simp [beDigits, ih]

theorem beDigits_all_lt (w n : Nat) : (beDigits w n).all (· < 256) = true := by
  induction w generalizing n with
  | zero => rfl
  | succ w ih => simp only [beDigits, List.all_cons, ih, Bool.and_true, decide_eq_true_eq]
                 omega

theorem beDigits_mod (w n : Nat) : beDigits w (n % 256 ^ w) = beDigits w n := by
  induction w generalizing n with
  | zero => rfl
  | succ w ih =>
    have hhead : n % 256 ^ (w + 1) / 256 ^ w % 256 = n / 256 ^ w % 256 := by
      rw [pow_succ, Nat.mod_mul_right_div_self, Nat.mod_mod_of_dvd _ (dvd_refl 256)]
    have htail : beDigits w (n % 256 ^ (w + 1)) = beDigits w n :=
      calc beDigits w (n % 256 ^ (w + 1))
          = beDigits w (n % 256 ^ (w + 1) % 256 ^ w) := (ih _).symm
        _ = beDigits w (n % 256 ^ w) := by
            rw [Nat.mod_mod_of_dvd _ (pow_dvd_pow 256 (Nat.le_succ w))]
        _ = beDigits w n := ih n
    simp only [beDigits, hhead, htail]

theorem beDigits_lt (w : Nat) : ∀ a b : Nat, a < 256 ^ w → b < 256 ^ w →
    (keyLt (beDigits w a) (beDigits w b) = true ↔ a < b) := by
  induction w with
  | zero =>
    intro a b ha hb
    simp only [pow_zero, Nat.lt_one_iff] at ha hb
    subst ha; subst hb
    simp [beDigits, keyLt]
  | succ w ih =>
    intro a b ha hb
    have hpos : 0 < 256 ^ w := Nat.pos_pow_of_pos w (by norm_num)
    have ha' : a < 256 ^ w * 256 := by rw [← pow_succ]; exact ha
    have hb' : b < 256 ^ w * 256 := by rw [← pow_succ]; exact hb
    have hda : a / 256 ^ w < 256 := Nat.div_lt_of_lt_mul ha'
    have hdb : b / 256 ^ w < 256 := Nat.div_lt_of_lt_mul hb'
    have hma : a / 256 ^ w % 256 = a / 256 ^ w := Nat.mod_eq_of_lt hda
    have hmb : b / 256 ^ w % 256 = b / 256 ^ w := Nat.mod_eq_of_lt hdb
    have da := Nat.div_add_mod a (256 ^ w)
    have db := Nat.div_add_mod b (256 ^ w)
    simp only [beDigits, keyLt, hma, hmb]
    rcases Nat.lt_trichotomy (a / 256 ^ w) (b / 256 ^ w) with h | h | h
    · simp only [if_pos h, true_iff]
      exact Nat.lt_of_div_lt_div h
    · rw [h] at da ⊢
      simp only [Nat.lt_irrefl, if_false]
      have ta : beDigits w a = beDigits w (a % 256 ^ w) := (beDigits_mod w a).symm
      have tb : beDigits w b = beDigits w (b % 256 ^ w) := (beDigits_mod w b).symm
      rw [ta, tb, ih (a % 256 ^ w) (b % 256 ^ w) (Nat.mod_lt _ hpos) (Nat.mod_lt _ hpos)]
      omega
    · have hfalse : ¬ a / 256 ^ w < b / 256 ^ w := Nat.lt_asymm h
      rw [if_neg hfalse, if_pos h]
      constructor
      · intro hx; exact Bool.noConfusion hx
      · intro hab
        exact absurd (Nat.lt_of_div_lt_div h) (Nat.lt_asymm hab)

theorem pow256_eq : (256 : Nat) ^ 8 = u64size := by norm_num [u64size]

theorem be64_lt {a b : Nat} (ha : a < u64size) (hb : b < u64size) :
    (keyLt (be64 a) (be64 b) = true ↔ a < b) :=
  beDigits_lt 8 a b (pow256_eq ▸ ha) (pow256_eq ▸ hb)

theorem be64_inj {a b : Nat} (ha : a < u64size) (hb : b < u64size)
    (h : be64 a = be64 b) : a = b := by
  rcases Nat.lt_trichotomy a b with hlt | he | hgt
  · have := (be64_lt ha hb).mpr hlt
    rw [h, keyLt_irrefl] at this
    cases this
  · exact he
  · have := (be64_lt hb ha).mpr hgt
    rw [h, keyLt_irrefl] at this
    cases this

theorem get_id_lt {k : Key} {a b : Nat} (ha : a < u64size) (hb : b < u64size) :
    (keyLt (get_id k a) (get_id k b) = true ↔ a < b) := by
  unfold get_id
  rw [keyLt_append]
  exact be64_lt ha hb

theorem get_id_eq_iff {k : Key} {a b : Nat} (ha : a < u64size) (hb : b < u64size) :
    get_id k a = get_id k b ↔ a = b := by
  constructor
  · intro h
    exact be64_inj ha hb (List.append_cancel_left h)
  · rintro rfl; rfl

theorem keyLe_get_id {k : Key} {a b : Nat} (ha : a < u64size) (hb : b < u64size) :
    (keyLe (get_id k a) (get_id k b) = true ↔ a ≤ b) := by
  unfold keyLe
  rw [Bool.or_eq_true, decide_eq_true_eq, get_id_lt ha hb, get_id_eq_iff ha hb]
  omega

theorem beDigits_foldl (w : Nat) (n : Nat) : ∀ acc : Nat,
    List.foldl (fun a b => a * 256 + b) acc (beDigits w n) = acc * 256 ^ w + n % 256 ^ w := by
  induction w with
  | zero => intro acc; simp [beDigits, Nat.mod_one]
  | succ w ih =>
    intro acc
    simp only [beDigits, List.foldl_cons, ih]
    have h1 : n / 256 ^ w % 256 = n % 256 ^ (w + 1) / 256 ^ w := by
      rw [pow_succ, Nat.mod_mul_right_div_self]
    have h2 : n % 256 ^ w = n % 256 ^ (w + 1) % 256 ^ w :=
      (Nat.mod_mod_of_dvd _ (pow_dvd_pow 256 (Nat.le_succ w))).symm
    have h3 := Nat.div_add_mod (n % 256 ^ (w + 1)) (256 ^ w)
    have h4 : 256 ^ (w + 1) = 256 ^ w * 256 := by ring
    rw [h1, h2]
    calc (acc * 256 + n % 256 ^ (w + 1) / 256 ^ w) * 256 ^ w + n % 256 ^ (w + 1) % 256 ^ w
        = acc * (256 ^ w * 256) + (256 ^ w * (n % 256 ^ (w + 1) / 256 ^ w)
            + n % 256 ^ (w + 1) % 256 ^ w) := by ring
      _ = acc * 256 ^ (w + 1) + n % 256 ^ (w + 1) := by rw [h3, h4]

theorem fromBe64_be64 {n : Nat} (h : n < u64size) : fromBe64 (be64 n) = some n := by
  unfold fromBe64 be64
  rw [if_pos ⟨beDigits_length 8 n, beDigits_all_lt 8 n⟩]
  rw [beDigits_foldl 8 n 0]
  congr 1
  rw [Nat.zero_mul, Nat.zero_add, pow256_eq]
  exact Nat.mod_eq_of_lt h

/-! Association-list lemmas. -/

theorem alookup_aset_self {α : Type} (l : List (Key × α)) (k : Key) (v : α) :
    alookup (aset l k v) k = some v := by
  induction l with
  | nil => simp [aset, alookup]
  | cons p rest ih =>
    by_cases h : p.1 = k
    · simp [aset, h, alookup]
    · simp [aset, h, alookup, ih]

theorem alookup_aset_ne {α : Type} (l : List (Key × α)) {k k' : Key} (v : α)
    (h : k' ≠ k) : alookup (aset l k v) k' = alookup l k' := by
  have hk : ¬ k = k' := fun he => h he.symm
  induction l with
  | nil => simp [aset, alookup, hk]
  | cons p rest ih =>
    by_cases hp : p.1 = k
    · have hp' : ¬ p.1 = k' := by rw [hp]; exact hk
      simp only [aset, if_pos hp, alookup, if_neg hk, if_neg hp']
    · simp only [aset, if_neg hp, alookup, ih]

theorem alookup_aremove_self {α : Type} (l : List (Key × α)) (k : Key) :
    alookup (aremove l k) k = none := by
  induction l with
  | nil => rfl
  | cons p rest ih =>
    by_cases h : p.1 = k
    · simpa [aremove, List.filter, h] using ih
    · simpa [aremove, List.filter, h, alookup] using ih

theorem alookup_ensure_self (m : List (Key × QueueBroadcast)) (q : Key) :
    (alookup (ensure_queue_broadcast m q) q).isSome = true := by
  unfold ensure_queue_broadcast
  cases h : alookup m q with
  | some h' => simp [h]
  | none => simp [alookup_aset_self]

theorem ensure_of_some {m : List (Key × QueueBroadcast)} {q : Key} {h : QueueBroadcast}
    (hl : alookup m q = some h) : ensure_queue_broadcast m q = m := by
  unfold ensure_queue_broadcast
  rw [hl]

theorem ensure_of_none {m : List (Key × QueueBroadcast)} {q : Key}
    (hl : alookup m q = none) :
    ensure_queue_broadcast m q = aset m q { sent := [], keys := [] } := by
  unfold ensure_queue_broadcast
  rw [hl]

/-! Sorted-insert lemmas for the tree model. -/

/-- The sortedness invariant of a modelled sled tree. -/
def TreeSorted (t : QTree) : Prop :=
  t.Pairwise (fun p₁ p₂ => keyLt p₁.1 p₂.1 = true)

instance : DecidablePred TreeSorted := fun t =>
  List.instDecidablePairwise t

theorem mem_treeInsert_self (t : QTree) (k : Key) (v : Event) :
    (k, v) ∈ treeInsert t k v := by
  induction t with
  | nil => simp [treeInsert]
  | cons p rest ih =>
    by_cases h₁ : keyLt k p.1
    · simp [treeInsert, h₁]
    · by_cases h₂ : k = p.1
      · simp [treeInsert, h₁, h₂, keyLt_irrefl]
      · simp [treeInsert, h₁, h₂, ih]

theorem mem_of_mem_treeInsert {t : QTree} {k : Key} {v : Event} {x : Key × Event}
    (h : x ∈ treeInsert t k v) : x = (k, v) ∨ x ∈ t := by
  induction t with
  | nil => simpa [treeInsert] using h
  | cons p rest ih =>
    by_cases h₁ : keyLt k p.1
    · simp only [treeInsert, if_pos h₁, List.mem_cons] at h
      rcases h with h | h | h
      · exact Or.inl h
      · exact Or.inr (by simp [h])
      · exact Or.inr (by simp [h])
    · by_cases h₂ : k = p.1
      · simp only [treeInsert, if_neg h₁, if_pos h₂, List.mem_cons] at h
        rcases h with h | h
        · exact Or.inl h
        · exact Or.inr (by simp [h])
      · simp only [treeInsert, if_neg h₁, if_neg h₂, List.mem_cons] at h
        rcases h with h | h
        · exact Or.inr (by simp [h])
        · rcases ih h with h' | h'
          · exact Or.inl h'
          · exact Or.inr (by simp [h'])

theorem treeInsert_sorted {t : QTree} (hs : TreeSorted t) (k : Key) (v : Event) :
    TreeSorted (treeInsert t k v) := by
  induction t with
  | nil => simp [treeInsert, TreeSorted]
  | cons p rest ih =>
    rcases List.pairwise_cons.mp hs with ⟨hhead, htail⟩
    by_cases h₁ : keyLt k p.1
    · unfold TreeSorted
      simp only [treeInsert, if_pos h₁]
      refine List.pairwise_cons.mpr ⟨?_, hs⟩
      intro x hx
      rcases List.mem_cons.mp hx with h | h
      · rw [h]; exact h₁
      · exact keyLt_trans h₁ (hhead x h)
    · by_cases h₂ : k = p.1
      · unfold TreeSorted
        simp only [treeInsert, if_neg h₁, if_pos h₂]
        refine List.pairwise_cons.mpr ⟨?_, htail⟩
        intro x hx
        rw [h₂]
        exact hhead x hx
      · unfold TreeSorted
        simp only [treeInsert, if_neg h₁, if_neg h₂]
        refine List.pairwise_cons.mpr ⟨?_, ih htail⟩
        intro x hx
        rcases mem_of_mem_treeInsert hx with h | h
        · rw [h]
          rcases keyLt_cases k p.1 with hc | hc | hc
          · exact absurd hc h₁
          · exact absurd hc h₂
          · exact hc
        · exact hhead x h

theorem sorted_keys_nodup {t : QTree} (hs : TreeSorted t) : (t.map Prod.fst).Nodup := by
  refine List.pairwise_map.mpr ?_
  exact hs.imp (fun hab => keyLt_ne hab)

theorem mem_assoc_unique {α : Type} {l : List (Key × α)} (h : (l.map Prod.fst).Nodup)
    {k : Key} {v w : α} (hv : (k, v) ∈ l) (hw : (k, w) ∈ l) : v = w := by
  induction l with
  | nil => cases hv
  | cons p rest ih =>
    simp only [List.map_cons, List.nodup_cons] at h
    rcases List.mem_cons.mp hv with hv' | hv' <;> rcases List.mem_cons.mp hw with hw' | hw'
    · subst hv'
      exact (((Prod.mk.injEq _ _ _ _).mp hw').2).symm
    · exfalso
      apply h.1
      rw [← hv']
      exact List.mem_map.mpr ⟨(k, w), hw', rfl⟩
    · exfalso
      apply h.1
      rw [← hw']
      exact List.mem_map.mpr ⟨(k, v), hv', rfl⟩
    · exact ih h.2 hv' hw'

/-! Lemmas about flagging the last historical event. -/

theorem set_last_concat (l : List Event) (e : Event) :
    set_last_on_last (l ++ [e]) = l ++ [{ e with last := true }] := by
  induction l with
  | nil => rfl
  | cons a l ih =>
    rcases l with _ | ⟨b, l'⟩
    · rfl
    · show a :: set_last_on_last ((b :: l') ++ [e]) = a :: ((b :: l') ++ [{ e with last := true }])
      rw [ih]

theorem set_last_length (l : List Event) : (set_last_on_last l).length = l.length := by
  rcases List.eq_nil_or_concat l with h | ⟨l', e, h⟩
  · rw [h]; rfl
  · rw [h, List.concat_eq_append, set_last_concat]
    simp

theorem set_last_getLast {l : List Event} (h : l ≠ []) :
    ∃ e, (set_last_on_last l).getLast? = some e ∧ e.last = true := by
  rcases List.eq_nil_or_concat l with h' | ⟨l', a, h'⟩
  · exact absurd h' h
  · rw [h', List.concat_eq_append, set_last_concat]
    exact ⟨{ a with last := true }, List.getLast?_concat _, rfl⟩

theorem set_last_mem {l : List Event} {e : Event} (h : e ∈ l) :
    ∃ e' ∈ set_last_on_last l, e'.id = e.id ∧ e'.body = e.body ∧ e'.sequence = e.sequence := by
  rcases List.eq_nil_or_concat l with h' | ⟨l', a, h'⟩
  · rw [h'] at h; cases h
  · subst h'
    rw [List.concat_eq_append] at h ⊢
    rw [set_last_concat]
    rcases List.mem_append.mp h with hm | hm
    · exact ⟨e, List.mem_append.mpr (Or.inl hm), rfl, rfl, rfl⟩
    · have he : e = a := by simpa using hm
      subst he
      exact ⟨{ e with last := true }, List.mem_append.mpr (Or.inr (by simp)), rfl, rfl, rfl⟩

/-! Lemmas about the sequence allocator. -/

theorem counter_next_pos (old : Option Key) :
    0 < counter_next old ∧ counter_next old < u64size := by
  unfold counter_next
  cases h : (old.bind fromBe64).bind checked_add_one with
  | none =>
    simp only [Option.getD_none]
    constructor
    · omega
    · norm_num [u64size]
  | some m =>
    simp only [Option.getD_some]
    rcases Option.bind_eq_some.mp h with ⟨n, _, hadd⟩
    unfold checked_add_one at hadd
    by_cases hlt : n + 1 < u64size
    · rw [if_pos hlt] at hadd
      cases hadd
      omega
    · rw [if_neg hlt] at hadd
      cases hadd

theorem counter_update_eq (old : Option Key) :
    counter_update old = be64 (counter_next old) := by
  unfold counter_update counter_next
  cases h : (old.bind fromBe64).bind checked_add_one <;> simp [h]

theorem gen_spec (s : QueueState) (q id : Key) :
    generate_next_id s q id =
      ({ s with counters := (aset s.counters (id_bytes ++ q ++ id)
          (be64 (counter_next (alookup s.counters (id_bytes ++ q ++ id))))) },
       .ok (counter_next (alookup s.counters (id_bytes ++ q ++ id)))) := by
  have hpos := counter_next_pos (alookup s.counters (id_bytes ++ (q ++ id)))
  have hne : counter_next (alookup s.counters (id_bytes ++ (q ++ id))) ≠ 0 := by omega
  simp [generate_next_id, counter_update_eq, fromBe64_be64 hpos.2, SequenceId.new, hne]

/-! Lemmas about tree registry and hub bookkeeping. -/

theorem check_true_iff {s : QueueState} {q : Key} :
    check_tree_exists s q = true ↔ q ∈ s.trees := by
  simp [check_tree_exists]

theorem open_tree_of_mem {s : QueueState} {q : Key} (h : q ∈ s.trees) :
    open_tree s q = (s, treeOf s q) := by
  unfold open_tree
  rw [if_pos h]

theorem hub_send_queue_state (s : QueueState) (q : Key) (v : Event) :
    (hub_send_queue s q v).trees = s.trees ∧ (hub_send_queue s q v).data = s.data ∧
    (hub_send_queue s q v).counters = s.counters ∧
    (hub_send_queue s q v).max_key_updates = s.max_key_updates := by
  cases h : alookup (ensure_queue_broadcast s.queue_meta q) q <;>
    simp [hub_send_queue, h]

theorem hub_send_key_state (s : QueueState) (q id : Key) (v : Event) :
    (hub_send_key s q id v).trees = s.trees ∧ (hub_send_key s q id v).data = s.data ∧
    (hub_send_key s q id v).counters = s.counters ∧
    (hub_send_key s q id v).max_key_updates = s.max_key_updates := by
  cases h : alookup (ensure_queue_broadcast s.queue_meta q) q with
  | none => simp [hub_send_key, h]
  | some hb => cases hk : alookup hb.keys id <;> simp [hub_send_key, h, hk]

theorem hub_ensure_key_state (s : QueueState) (q id : Key) :
    (hub_ensure_key s q id).trees = s.trees ∧ (hub_ensure_key s q id).data = s.data ∧
    (hub_ensure_key s q id).counters = s.counters ∧
    (hub_ensure_key s q id).max_key_updates = s.max_key_updates := by
  cases h : alookup (ensure_queue_broadcast s.queue_meta q) q with
  | none => simp [hub_ensure_key, h]
  | some hb => cases hk : alookup hb.keys id <;> simp [hub_ensure_key, h, hk]

theorem alookup_ensure_cases (m : List (Key × QueueBroadcast)) (q : Key) :
    (alookup m q = none ∧
      alookup (ensure_queue_broadcast m q) q = some { sent := [], keys := [] }) ∨
    ∃ h, alookup m q = some h ∧ alookup (ensure_queue_broadcast m q) q = some h := by
  cases h : alookup m q with
  | none =>
    left
    exact ⟨rfl, by rw [ensure_of_none h]; exact alookup_aset_self _ _ _⟩
  | some hb =>
    right
    exact ⟨hb, rfl, by rw [ensure_of_some h]; exact h⟩

theorem queue_sent_send_queue (s : QueueState) (q : Key) (v : Event) :
    queue_sent (hub_send_queue s q v) q = queue_sent s q ++ [v] := by
  rcases alookup_ensure_cases s.queue_meta q with ⟨h0, he⟩ | ⟨hb, h0, he⟩ <;>
    simp [hub_send_queue, queue_sent, he, h0, alookup_aset_self]

theorem queue_sent_send_key (s : QueueState) (q id : Key) (v : Event) :
    queue_sent (hub_send_key s q id v) q = queue_sent s q := by
  rcases alookup_ensure_cases s.queue_meta q with ⟨h0, he⟩ | ⟨hb, h0, he⟩
  · simp [hub_send_key, queue_sent, he, h0, alookup, alookup_aset_self]
  · cases hk : alookup hb.keys id <;>
      simp [hub_send_key, queue_sent, he, h0, hk, alookup_aset_self]

theorem key_sent_send_key (s : QueueState) (q id : Key) (v : Event) :
    key_sent (hub_send_key s q id v) q id = key_sent s q id ++ [v] := by
  rcases alookup_ensure_cases s.queue_meta q with ⟨h0, he⟩ | ⟨hb, h0, he⟩
  · simp [hub_send_key, key_sent, he, h0, alookup, alookup_aset_self]
  · cases hk : alookup hb.keys id <;>
      simp [hub_send_key, key_sent, he, h0, hk, alookup_aset_self]

theorem key_sent_send_queue (s : QueueState) (q id : Key) (v : Event) :
    key_sent (hub_send_queue s q v) q id = key_sent s q id := by
  rcases alookup_ensure_cases s.queue_meta q with ⟨h0, he⟩ | ⟨hb, h0, he⟩
  · simp [hub_send_queue, key_sent, he, h0, alookup, alookup_aset_self]
  · simp [hub_send_queue, key_sent, he, h0, alookup_aset_self]

/-! Unfolding helpers for the queue operations. -/

theorem open_tree_snd (s : QueueState) (q : Key) : (open_tree s q).2 = treeOf s q := by
  unfold open_tree
  split <;> rfl

theorem send_core_snd (s : QueueState) (q : Key) (value : Event) (sequence : Nat) :
    (send_core s q value sequence).2 = .ok (true, SequenceId.new sequence) := rfl

theorem send_core_zero {s : QueueState} (hmax : s.max_key_updates = some 0)
    (q : Key) (value : Event) (sequence : Nat) :
    send_core s q value sequence =
      (hub_send_key (hub_send_queue s q value) q value.id value,
       .ok (true, SequenceId.new sequence)) := by
  unfold send_core
  rw [hmax]
  simp

theorem subscribe_by_id_snd {s : QueueState} {q : Key} (id : Key) (rs : RequestSequence)
    (h : check_tree_exists s q = true) :
    (subscribe_queue_by_id s q id rs).2 =
      .ok { stream := some ((get_prev_items (treeOf s q) id rs).map set_last_on_last),
            preloaded_count :=
              ((get_prev_items (treeOf s q) id rs).map set_last_on_last).map List.length } := by
  simp [subscribe_queue_by_id, h, open_tree_snd]

theorem subscribe_queue_snd {s : QueueState} {q : Key} (rs : RequestSequence)
    (h : check_tree_exists s q = true) :
    (subscribe_queue s q rs).2 =
      .ok { stream := some ((get_prev_all_items (treeOf s q) rs).map set_last_on_last),
            preloaded_count :=
              ((get_prev_all_items (treeOf s q) rs).map set_last_on_last).map List.length } := by
  simp [subscribe_queue, h, open_tree_snd]

theorem send_accepted {s : QueueState} {q : Key} (e : Event)
    (h : check_tree_exists s q = true) :
    ∃ x, (send_to_queue s q e).2 = .ok (true, x) := by
  simp only [send_to_queue, h, if_true]
  cases hseq : e.sequence with
  | none =>
    rw [gen_spec]
    exact ⟨_, send_core_snd _ _ _ _⟩
  | some n => exact ⟨_, send_core_snd _ _ _ _⟩

/-! Shared concrete inputs for the witnesses. -/

/-- A queue state with no trees, data, counters or hubs and no retention cap. -/
def wit_state : QueueState :=
  { trees := [], data := [], counters := [], queue_meta := [], max_key_updates := none }

/-- A payload for key a with no caller-supplied sequence. -/
def wit_event : Event := { id := [97], sequence := none, last := false, body := [120] }

/-- C3 (claim): for a queue name whose tree is not in the store registry, publish
returns Ok (accepted false, no sequence) with no side effects, and both
subscribe operations return Ok of the empty subscription (stream none, preload
count none) rather than an error. -/
theorem C3_missing_tree (s : QueueState) (q k : Key) (e : Event) (rs : RequestSequence)
    (h : check_tree_exists s q = false) :
    send_to_queue s q e = (s, .ok (false, none)) ∧
    subscribe_queue_by_id s q k rs = (s, .ok Subscription.empty) ∧
    subscribe_queue s q rs = (s, .ok Subscription.empty) ∧
    Subscription.empty.stream = none ∧ Subscription.empty.preloaded_count = none := by
  refine ⟨?_, ?_, ?_, rfl, rfl⟩ <;>
    simp [send_to_queue, subscribe_queue_by_id, subscribe_queue, h]

theorem C3_missing_tree_witness :
    send_to_queue wit_state [113] wit_event = (wit_state, .ok (false, none)) ∧
    subscribe_queue_by_id wit_state [113] [97] (some .First) =
      (wit_state, .ok Subscription.empty) ∧
    subscribe_queue wit_state [113] (some .First) = (wit_state, .ok Subscription.empty) ∧
    Subscription.empty.stream = none ∧ Subscription.empty.preloaded_count = none :=
  C3_missing_tree wit_state [113] [97] wit_event (some .First) (by decide)

/-- C9 (claim, spec-modelled guard): creating or publishing to a queue name
matching the reserved counter namespace marker is rejected with the
reserved-name error, QueueError.SystemQueueName. -/
theorem C9_reserved_name (s : QueueState) (q : Key) (e : Event)
    (h : List.isPrefixOf id_bytes q = true) :
    create_queue_guarded s q = (s, .error .SystemQueueName) ∧
    send_to_queue_guarded s q e = (s, .error .SystemQueueName) := by
  constructor <;>
    simp [create_queue_guarded, send_to_queue_guarded, guard_queue_name, h]

theorem C9_reserved_name_witness :
    create_queue_guarded wit_state [105, 100, 95, 120] =
      (wit_state, .error .SystemQueueName) ∧
    send_to_queue_guarded wit_state [105, 100, 95, 120] wit_event =
      (wit_state, .error .SystemQueueName) :=
  C9_reserved_name wit_state [105, 100, 95, 120] wit_event (by decide)

/-- C5 (claim): the allocator returns the post-update counter value: an absent
counter is written as one and one is returned; a stored big-endian u64 n whose
checked increment does not overflow is written as n + 1 and n + 1 is returned;
on overflow the counter is re-initialized to one; and ZeroSequence is reported
exactly when the post-update value does not decode to a strictly positive u64. -/
theorem C5_allocator (s : QueueState) (q k : Key) :
    (alookup s.counters (id_bytes ++ q ++ k) = none →
      (generate_next_id s q k).2 = .ok 1 ∧
      alookup (generate_next_id s q k).1.counters (id_bytes ++ q ++ k) = some (be64 1)) ∧
    (∀ n, n + 1 < u64size →
      alookup s.counters (id_bytes ++ q ++ k) = some (be64 n) →
      (generate_next_id s q k).2 = .ok (n + 1) ∧
      alookup (generate_next_id s q k).1.counters (id_bytes ++ q ++ k) = some (be64 (n + 1))) ∧
    (alookup s.counters (id_bytes ++ q ++ k) = some (be64 u64MAX) →
      (generate_next_id s q k).2 = .ok 1 ∧
      alookup (generate_next_id s q k).1.counters (id_bytes ++ q ++ k) = some (be64 1)) ∧
    ((generate_next_id s q k).2 = .error .ZeroSequence ↔
      ¬ ∃ v m, alookup (generate_next_id s q k).1.counters (id_bytes ++ q ++ k) = some v ∧
        fromBe64 v = some m ∧ 0 < m) := by
  have hg := gen_spec s q k
  refine ⟨?_, ?_, ?_, ?_⟩
  · intro h0
    have hcn : counter_next (alookup s.counters (id_bytes ++ q ++ k)) = 1 := by
      unfold counter_next
      rw [h0]
      rfl
    rw [hg, hcn]
    exact ⟨rfl, alookup_aset_self _ _ _⟩
  · intro n hlt h0
    have hcn : counter_next (alookup s.counters (id_bytes ++ q ++ k)) = n + 1 := by
      unfold counter_next
      rw [h0]
      simp only [Option.some_bind, fromBe64_be64 (by omega : n < u64size)]
      unfold checked_add_one
      rw [if_pos hlt]
      rfl
    rw [hg, hcn]
    exact ⟨rfl, alookup_aset_self _ _ _⟩
  · intro h0
    have hMlt : u64MAX < u64size := by norm_num [u64MAX, u64size]
    have hadd : ¬ (u64MAX + 1 < u64size) := by norm_num [u64MAX, u64size]
    have hcn : counter_next (alookup s.counters (id_bytes ++ q ++ k)) = 1 := by
      unfold counter_next
      rw [h0]
      simp only [Option.some_bind, fromBe64_be64 hMlt]
      unfold checked_add_one
      rw [if_neg hadd]
      rfl
    rw [hg, hcn]
    exact ⟨rfl, alookup_aset_self _ _ _⟩
  · have hpos := counter_next_pos (alookup s.counters (id_bytes ++ q ++ k))
    constructor
    · intro hx
      rw [hg] at hx
      exact absurd hx (by simp)
    · intro hx
      exfalso
      apply hx
      rw [hg]
      exact ⟨_, _, alookup_aset_self _ _ _, fromBe64_be64 hpos.2, hpos.1⟩

/-- A queue state whose counter for queue q and key a already stores five. -/
def c5_state : QueueState :=
  { wit_state with counters := [(id_bytes ++ [113] ++ [97], be64 5)] }

theorem C5_allocator_witness :
    ((generate_next_id wit_state [113] [97]).2 = .ok 1 ∧
      alookup (generate_next_id wit_state [113] [97]).1.counters
        (id_bytes ++ [113] ++ [97]) = some (be64 1)) ∧
    ((generate_next_id c5_state [113] [97]).2 = .ok 6 ∧
      alookup (generate_next_id c5_state [113] [97]).1.counters
        (id_bytes ++ [113] ++ [97]) = some (be64 6)) :=
  ⟨(C5_allocator wit_state [113] [97]).1 (by decide),
   (C5_allocator c5_state [113] [97]).2.1 5 (by decide) (by decide)⟩

/-! delete_queue unfolding. -/

theorem delete_spec (s : QueueState) (q k : Key) :
    delete_queue s q k =
      ({ s with
          queue_meta := hub_remove_key (ensure_queue_broadcast s.queue_meta q) q k,
          trees := if q ∈ s.trees then s.trees else q :: s.trees,
          data := (aset s.data q ((treeOf s q).filter
            (fun p => decide (p.1 ∉ (prefixScan (treeOf s q) k).map Prod.fst)))) },
       .ok ()) := by
  have hqm : ∀ qm : List (Key × QueueBroadcast),
      open_tree { s with queue_meta := qm } q =
        (if q ∈ s.trees then { s with queue_meta := qm }
          else { s with queue_meta := qm, trees := q :: s.trees }, treeOf s q) := by
    intro qm
    unfold open_tree
    by_cases h : q ∈ s.trees <;> simp [h, treeOf]
  simp only [delete_queue]
  rw [hqm]
  by_cases h : q ∈ s.trees <;> simp [h, treeOf]

/-- C10 (claim): delete_queue on a queue whose tree does not exist succeeds,
registers the tree and creates a hub entry for the queue, after which a publish
to the queue is accepted although create_queue was never called. -/
theorem C10_delete_creates (s : QueueState) (q k : Key) (e : Event)
    (h : check_tree_exists s q = false) :
    (delete_queue s q k).2 = .ok () ∧
    check_tree_exists (delete_queue s q k).1 q = true ∧
    (alookup (delete_queue s q k).1.queue_meta q).isSome = true ∧
    ∃ x, (send_to_queue (delete_queue s q k).1 q e).2 = .ok (true, x) := by
  have hnot : q ∉ s.trees := by
    intro hmem
    rw [check_true_iff.mpr hmem] at h
    cases h
  have hmem' : check_tree_exists (delete_queue s q k).1 q = true := by
    rw [delete_spec]
    simp [check_tree_exists, hnot]
  refine ⟨by rw [delete_spec], hmem', ?_, send_accepted e hmem'⟩
  rw [delete_spec]
  show (alookup (hub_remove_key (ensure_queue_broadcast s.queue_meta q) q k) q).isSome = true
  rcases alookup_ensure_cases s.queue_meta q with ⟨h0, he⟩ | ⟨hb, h0, he⟩ <;>
    simp [hub_remove_key, he, alookup_aset_self]

theorem C10_delete_creates_witness :
    (delete_queue wit_state [113] [97]).2 = .ok () ∧
    check_tree_exists (delete_queue wit_state [113] [97]).1 [113] = true ∧
    (alookup (delete_queue wit_state [113] [97]).1.queue_meta [113]).isSome = true ∧
    ∃ x, (send_to_queue (delete_queue wit_state [113] [97]).1 [113] wit_event).2 =
      .ok (true, x) :=
  C10_delete_creates wit_state [113] [97] wit_event (by decide)

/-- C4 (claim): with max_key_updates zero, a publish of an event without a
caller-supplied sequence to an existing queue is accepted with a
counter-allocated sequence, persists no event body (a later First replay of the
key is empty), and still sends the sequenced event into the queue-wide and the
per-key broadcast channels. -/
theorem C4_zero_retention (s : QueueState) (q : Key) (e : Event)
    (hmax : s.max_key_updates = some 0)
    (htree : check_tree_exists s q = true)
    (hseq : e.sequence = none) :
    ∃ n, 0 < n ∧
      (generate_next_id s q e.id).2 = .ok n ∧
      (send_to_queue s q e).2 = .ok (true, some n) ∧
      (send_to_queue s q e).1.data = s.data ∧
      (send_to_queue s q e).1.trees = s.trees ∧
      queue_sent (send_to_queue s q e).1 q =
        queue_sent s q ++ [{ e with sequence := some n }] ∧
      key_sent (send_to_queue s q e).1 q e.id =
        key_sent s q e.id ++ [{ e with sequence := some n }] ∧
      (prefixScan (treeOf s q) e.id = [] →
        (subscribe_queue_by_id (send_to_queue s q e).1 q e.id (some .First)).2 =
          .ok { stream := some (some []), preloaded_count := some 0 }) := by
  have hpos := counter_next_pos (alookup s.counters (id_bytes ++ q ++ e.id))
  set cn := counter_next (alookup s.counters (id_bytes ++ q ++ e.id)) with hcn
  set s₁ : QueueState :=
    { s with counters := aset s.counters (id_bytes ++ q ++ e.id) (be64 cn) } with hs₁
  set e' : Event := { e with sequence := some cn } with he'
  have hsend : send_to_queue s q e = send_core s₁ q e' cn := by
    simp only [send_to_queue, htree, if_true, hseq]
    rw [gen_spec]
  have hcore : send_core s₁ q e' cn =
      (hub_send_key (hub_send_queue s₁ q e') q e'.id e', .ok (true, SequenceId.new cn)) :=
    send_core_zero (s := s₁) (show s₁.max_key_updates = some 0 from hmax) q e' cn
  have hnew : SequenceId.new cn = some cn := by
    unfold SequenceId.new
    rw [if_neg (by omega : ¬ cn = 0)]
  have hstate : (send_to_queue s q e).1 = hub_send_key (hub_send_queue s₁ q e') q e'.id e' := by
    rw [hsend, hcore]
  have hdata : (send_to_queue s q e).1.data = s.data := by
    rw [hstate, (hub_send_key_state _ _ _ _).2.1, (hub_send_queue_state _ _ _).2.1]
  have htrees : (send_to_queue s q e).1.trees = s.trees := by
    rw [hstate, (hub_send_key_state _ _ _ _).1, (hub_send_queue_state _ _ _).1]
  refine ⟨cn, hpos.1, ?_, ?_, hdata, htrees, ?_, ?_, ?_⟩
  · rw [gen_spec]
  · rw [hsend, hcore, hnew]
  · rw [hstate, queue_sent_send_key, queue_sent_send_queue]
    rfl
  · rw [hstate]
    have h1 : key_sent (hub_send_key (hub_send_queue s₁ q e') q e'.id e') q e'.id =
        key_sent (hub_send_queue s₁ q e') q e'.id ++ [e'] :=
      key_sent_send_key _ _ _ _
    rw [show e'.id = e.id from rfl] at h1
    rw [h1, key_sent_send_queue]
    rfl
  · intro hscan
    have hcheck : check_tree_exists (send_to_queue s q e).1 q = true := by
      rw [check_tree_exists, htrees]
      exact htree
    rw [subscribe_by_id_snd e.id (some .First) hcheck]
    have htq : treeOf (send_to_queue s q e).1 q = treeOf s q := by
      rw [treeOf, hdata, treeOf]
    rw [htq]
    simp [get_prev_items, extract_sequences, hscan, set_last_on_last]

/-- A queue state with queue q registered and persistence disabled. -/
def c4_state : QueueState :=
  { trees := [[113]], data := [], counters := [], queue_meta := [],
    max_key_updates := some 0 }

theorem C4_zero_retention_witness :
    ∃ n, 0 < n ∧
      (generate_next_id c4_state [113] wit_event.id).2 = .ok n ∧
      (send_to_queue c4_state [113] wit_event).2 = .ok (true, some n) ∧
      (send_to_queue c4_state [113] wit_event).1.data = c4_state.data ∧
      (send_to_queue c4_state [113] wit_event).1.trees = c4_state.trees ∧
      queue_sent (send_to_queue c4_state [113] wit_event).1 [113] =
        queue_sent c4_state [113] ++ [{ wit_event with sequence := some n }] ∧
      key_sent (send_to_queue c4_state [113] wit_event).1 [113] wit_event.id =
        key_sent c4_state [113] wit_event.id ++ [{ wit_event with sequence := some n }] ∧
      (prefixScan (treeOf c4_state [113]) wit_event.id = [] →
        (subscribe_queue_by_id (send_to_queue c4_state [113] wit_event).1 [113]
            wit_event.id (some .First)).2 =
          .ok { stream := some (some []), preloaded_count := some 0 }) :=
  C4_zero_retention c4_state [113] wit_event rfl (by decide) rfl

/-! C1: evaluation of the retention cap at the spec's own worked scenario. -/

/-- The queue state of the retention scenario: queue q exists, cap of two. -/
def c1_state0 : QueueState :=
  { trees := [[113]], data := [], counters := [], queue_meta := [],
    max_key_updates := some 2 }

/-- The scenario payloads: key a, no caller sequence, bodies x1, x2, x3. -/
def c1_event (b : Nat) : Event := { id := [97], sequence := none, last := false, body := [b] }

def c1_state1 : QueueState := (send_to_queue c1_state0 [113] (c1_event 49)).1

def c1_state2 : QueueState := (send_to_queue c1_state1 [113] (c1_event 50)).1

def c1_state3 : QueueState := (send_to_queue c1_state2 [113] (c1_event 51)).1

/-- C1 (code evaluation at the failing input): with max_key_updates two, after
three accepted publishes for one key the tree retains only the single newest
event (sequence three), not the min(N, M) = two most recent events the claim
requires; the retention trim keeps m - 1 survivors. -/
theorem C1_code_eval :
    (send_to_queue c1_state2 [113] (c1_event 51)).2 = .ok (true, some 3) ∧
    (prefixScan (treeOf c1_state3 [113]) [97]).map (fun p => (p.2.sequence, p.2.body)) =
      [(some 3, [51])] ∧
    (prefixScan (treeOf c1_state3 [113]) [97]).length ≠ min 3 2 := by
  refine ⟨rfl, rfl, by decide⟩

/-! C7: round-trip of a published event through a First replay. -/

/-- The tree contents produced by the persistence step of send_to_queue: insert
under the composite key, then, under a retention cap m, drop everything after
the m - 1 newest entries of the key prefix. -/
def publish_tree (mku : Option Nat) (t : QTree) (id : Key) (v : Event) (n : Nat) : QTree :=
  let t := treeInsert t (get_id id n) v
  match mku with
  | none => t
  | some m =>
    let removals := ((prefixScan t id).reverse.drop (m - 1)).map Prod.fst
    t.filter (fun p => decide (p.1 ∉ removals))

theorem send_core_pos {s : QueueState} (hmax : s.max_key_updates ≠ some 0)
    (q : Key) (v : Event) (n : Nat) :
    send_core s q v n =
      (hub_send_key (hub_send_queue
          { s with data := (aset s.data q
            (publish_tree s.max_key_updates (treeOf s q) v.id v n)) } q v) q v.id v,
       .ok (true, SequenceId.new n)) := by
  simp only [send_core, publish_tree, open_tree_snd]
  rw [if_neg hmax]

theorem roundtrip_core (mku : Option Nat) (s' : QueueState) (q : Key) (e : Event) (n : Nat)
    (t : QTree) (hsorted : TreeSorted t)
    (hq : check_tree_exists s' q = true)
    (hdata : treeOf s' q = publish_tree mku t e.id { e with sequence := some n } n)
    (hkeep : get_id e.id n ∈ (treeOf s' q).map Prod.fst) :
    ∃ l, (subscribe_queue_by_id s' q e.id (some .First)).2 =
        .ok { stream := some (some l), preloaded_count := some l.length } ∧
      ∃ ev ∈ l, ev.id = e.id ∧ ev.body = e.body ∧ ev.sequence = some n := by
  have hsubl : (treeOf s' q).Sublist
      (treeInsert t (get_id e.id n) { e with sequence := some n }) := by
    rw [hdata]
    unfold publish_tree
    cases mku with
    | none => exact List.Sublist.refl _
    | some m => exact List.filter_sublist _
  have hinsSorted : TreeSorted (treeInsert t (get_id e.id n) { e with sequence := some n }) :=
    treeInsert_sorted hsorted _ _
  have hnodup := sorted_keys_nodup hinsSorted
  obtain ⟨p, hp, hpk⟩ := List.mem_map.mp hkeep
  have hpmem := List.Sublist.mem hp hsubl
  have hpeq : p = (get_id e.id n, p.2) := by
    cases p
    simp only at hpk
    rw [hpk]
  rw [hpeq] at hpmem hp
  have hvs : p.2 = { e with sequence := some n } :=
    mem_assoc_unique hnodup hpmem (mem_treeInsert_self t _ _)
  rw [hvs] at hp
  have hprefix : List.isPrefixOf e.id (get_id e.id n) = true := by
    rw [List.isPrefixOf_iff_prefix]
    exact List.prefix_append _ _
  have hscanmem : ({ e with sequence := some n } : Event) ∈
      (prefixScan (treeOf s' q) e.id).map Prod.snd := by
    refine List.mem_map.mpr ⟨(get_id e.id n, { e with sequence := some n }), ?_, rfl⟩
    unfold prefixScan
    exact List.mem_filter.mpr ⟨hp, hprefix⟩
  obtain ⟨ev, hev, hid, hbody, hseq'⟩ := set_last_mem hscanmem
  refine ⟨set_last_on_last ((prefixScan (treeOf s' q) e.id).map Prod.snd), ?_,
    ev, hev, hid, hbody, hseq'⟩
  rw [subscribe_by_id_snd e.id (some .First) hq]
  simp [get_prev_items, extract_sequences]

/-- C7 (claim): an event successfully published with a non-zero retention
setting whose storage entry has not been trimmed or deleted is yielded by a
subsequent First replay of its key, payload-equal and with the sequence the
publish returned (stored events deserialize back to what was serialized). -/
theorem C7_roundtrip (s s' : QueueState) (q : Key) (e : Event) (n : Nat)
    (hmax : s.max_key_updates ≠ some 0)
    (hsorted : TreeSorted (treeOf s q))
    (hres : send_to_queue s q e = (s', .ok (true, some n)))
    (hkeep : get_id e.id n ∈ (treeOf s' q).map Prod.fst) :
    ∃ l, (subscribe_queue_by_id s' q e.id (some .First)).2 =
        .ok { stream := some (some l), preloaded_count := some l.length } ∧
      ∃ ev ∈ l, ev.id = e.id ∧ ev.body = e.body ∧ ev.sequence = some n := by
  have hcheck : check_tree_exists s q = true := by
    cases hc : check_tree_exists s q
    · unfold send_to_queue at hres
      rw [hc] at hres
      simp at hres
    · rfl
  cases hseq : e.sequence with
  | none =>
    have hpos := counter_next_pos (alookup s.counters (id_bytes ++ q ++ e.id))
    set cn := counter_next (alookup s.counters (id_bytes ++ q ++ e.id)) with hcn
    set sA : QueueState :=
      { s with counters := aset s.counters (id_bytes ++ q ++ e.id) (be64 cn) } with hsA
    have hmaxA : sA.max_key_updates ≠ some 0 := hmax
    simp only [send_to_queue, hcheck, if_true, hseq] at hres
    rw [gen_spec] at hres
    have hres2 : send_core sA q { e with sequence := some cn } cn =
        (s', .ok (true, some n)) := hres
    rw [send_core_pos hmaxA] at hres2
    have hs'eq := congrArg Prod.fst hres2
    have hsnd := congrArg Prod.snd hres2
    simp only at hs'eq hsnd
    have h2 : SequenceId.new cn = some n := by
      have h1 : ((true, SequenceId.new cn) : Bool × Option Nat) = (true, some n) := by
        injection hsnd
      exact congrArg Prod.snd h1
    unfold SequenceId.new at h2
    rw [if_neg (by omega : ¬ cn = 0)] at h2
    injection h2 with h3
    subst h3
    have htr : s'.trees = s.trees := by
      rw [← hs'eq, (hub_send_key_state _ _ _ _).1, (hub_send_queue_state _ _ _).1]
    have hq' : check_tree_exists s' q = true := by
      rw [check_tree_exists, htr]
      exact hcheck
    have hdata : treeOf s' q =
        publish_tree s.max_key_updates (treeOf s q) e.id { e with sequence := some cn } cn := by
      rw [treeOf, ← hs'eq, (hub_send_key_state _ _ _ _).2.1, (hub_send_queue_state _ _ _).2.1]
      show (alookup (aset s.data q
        (publish_tree s.max_key_updates (treeOf s q) e.id { e with sequence := some cn } cn)) q).getD [] = _
      rw [alookup_aset_self]
      rfl
    exact roundtrip_core s.max_key_updates s' q e cn (treeOf s q) hsorted hq' hdata hkeep
  | some m =>
    simp only [send_to_queue, hcheck, if_true, hseq] at hres
    rw [send_core_pos hmax] at hres
    have hs'eq := congrArg Prod.fst hres
    have hsnd := congrArg Prod.snd hres
    simp only at hs'eq hsnd
    have h2 : SequenceId.new m = some n := by
      have h1 : ((true, SequenceId.new m) : Bool × Option Nat) = (true, some n) := by
        injection hsnd
      exact congrArg Prod.snd h1
    unfold SequenceId.new at h2
    by_cases hm0 : m = 0
    · rw [if_pos hm0] at h2
      cases h2
    · rw [if_neg hm0] at h2
      injection h2 with h3
      subst h3
      have hes : ({ e with sequence := some m } : Event) = e := by
        cases e
        simp only at hseq
        rw [hseq]
      have htr : s'.trees = s.trees := by
        rw [← hs'eq, (hub_send_key_state _ _ _ _).1, (hub_send_queue_state _ _ _).1]
      have hq' : check_tree_exists s' q = true := by
        rw [check_tree_exists, htr]
        exact hcheck
      have hdata : treeOf s' q =
          publish_tree s.max_key_updates (treeOf s q) e.id { e with sequence := some m } m := by
        rw [treeOf, ← hs'eq, (hub_send_key_state _ _ _ _).2.1, (hub_send_queue_state _ _ _).2.1]
        rw [hes]
        show (alookup (aset s.data q
          (publish_tree s.max_key_updates (treeOf s q) e.id e m)) q).getD [] = _
        rw [alookup_aset_self]
        rfl
      exact roundtrip_core s.max_key_updates s' q e m (treeOf s q) hsorted hq' hdata hkeep

/-- A queue state with queue q registered, empty tree and no retention cap. -/
def c7_state : QueueState :=
  { trees := [[113]], data := [], counters := [], queue_meta := [],
    max_key_updates := none }

theorem C7_roundtrip_witness :
    ∃ l, (subscribe_queue_by_id (send_to_queue c7_state [113] wit_event).1 [113]
          wit_event.id (some .First)).2 =
        .ok { stream := some (some l), preloaded_count := some l.length } ∧
      ∃ ev ∈ l, ev.id = wit_event.id ∧ ev.body = wit_event.body ∧ ev.sequence = some 1 :=
  C7_roundtrip c7_state (send_to_queue c7_state [113] wit_event).1 [113] wit_event 1
    (by decide) (by decide) rfl (by decide)

/-- C8 (amended): for every subscribe on an existing queue, with a replay mode
the historical list is present, its final element (when the list is non-empty)
has the terminal flag set, and the preload count is the number of historical
events (some zero when the replay is empty); with no replay mode requested both
the historical part and the preload count are absent. -/
theorem C8_terminal_flag (s : QueueState) (q k : Key) (sid : RequestSequenceId)
    (htree : check_tree_exists s q = true) :
    (∃ l, (subscribe_queue_by_id s q k (some sid)).2 =
        .ok { stream := some (some l), preloaded_count := some l.length } ∧
      (∀ ev, l.getLast? = some ev → ev.last = true)) ∧
    (∃ l, (subscribe_queue s q (some sid)).2 =
        .ok { stream := some (some l), preloaded_count := some l.length } ∧
      (∀ ev, l.getLast? = some ev → ev.last = true)) ∧
    (subscribe_queue_by_id s q k none).2 =
      .ok { stream := some none, preloaded_count := none } ∧
    (subscribe_queue s q none).2 = .ok { stream := some none, preloaded_count := none } := by
  have hfin : ∀ base : List Event, ∀ ev, (set_last_on_last base).getLast? = some ev →
      ev.last = true := by
    intro base ev hev
    by_cases hb : base = []
    · rw [hb] at hev
      cases hev
    · obtain ⟨e0, hsome, hlast⟩ := set_last_getLast hb
      rw [hsome] at hev
      injection hev with h
      rw [← h]
      exact hlast
  refine ⟨?_, ?_, ?_, ?_⟩
  · refine ⟨set_last_on_last ((extract_sequences (treeOf s q) sid k).map Prod.snd), ?_, ?_⟩
    · rw [subscribe_by_id_snd k (some sid) htree]
      simp [get_prev_items]
    · exact hfin _
  · refine ⟨set_last_on_last ((get_prev_all_items (treeOf s q) (some sid)).getD []), ?_, ?_⟩
    · rw [subscribe_queue_snd (some sid) htree]
      cases hga : get_prev_all_items (treeOf s q) (some sid) with
      | none => simp [get_prev_all_items] at hga
      | some base => simp [hga]
    · exact hfin _
  · rw [subscribe_by_id_snd k none htree]
    simp [get_prev_items]
  · rw [subscribe_queue_snd none htree]
    simp [get_prev_all_items]

/-- A stored event that already carries the terminal flag. -/
def c8_ev1 : Event := { id := [97], sequence := some 1, last := true, body := [49] }

/-- A second stored event for the same key, flag clear. -/
def c8_ev2 : Event := { id := [97], sequence := some 2, last := false, body := [50] }

/-- Queue q whose tree stores the two events of key a in order. -/
def c8_state : QueueState :=
  { trees := [[113]],
    data := [([113], [(get_id [97] 1, c8_ev1), (get_id [97] 2, c8_ev2)])],
    counters := [], queue_meta := [], max_key_updates := none }

/-- C8 (counterexample): a First replay of key a on c8_state yields two
historical events of which BOTH carry the terminal flag, so it is false that
exactly the final element has the flag set; and on a queue with no tree a
subscribe with a replay mode yields preloaded_count none, not some zero. -/
theorem C8_counterexample :
    (∃ l, (subscribe_queue_by_id c8_state [113] [97] (some .First)).2 =
        .ok { stream := some (some l), preloaded_count := some 2 } ∧
      l.length = 2 ∧ ∀ ev ∈ l, ev.last = true) ∧
    (subscribe_queue_by_id wit_state [113] [97] (some .First)).2 =
      .ok { stream := none, preloaded_count := none } := by
  refine ⟨⟨[c8_ev1, { c8_ev2 with last := true }], rfl, rfl, by decide⟩, rfl⟩

theorem C8_terminal_flag_witness :
    (∃ l, (subscribe_queue_by_id c8_state [113] [97] (some .Last)).2 =
        .ok { stream := some (some l), preloaded_count := some l.length } ∧
      (∀ ev, l.getLast? = some ev → ev.last = true)) ∧
    (∃ l, (subscribe_queue c8_state [113] (some .Last)).2 =
        .ok { stream := some (some l), preloaded_count := some l.length } ∧
      (∀ ev, l.getLast? = some ev → ev.last = true)) ∧
    (subscribe_queue_by_id c8_state [113] [97] none).2 =
      .ok { stream := some none, preloaded_count := none } ∧
    (subscribe_queue c8_state [113] none).2 =
      .ok { stream := some none, preloaded_count := none } :=
  C8_terminal_flag c8_state [113] [97] .Last (by decide)

/-! C2: frame properties of delete_queue. -/

theorem not_prefix_both {K K' x : Key} (h1 : ¬ K <+: K') (h2 : ¬ K' <+: K)
    (ha : List.isPrefixOf K x = true) (hb : List.isPrefixOf K' x = true) : False := by
  rw [List.isPrefixOf_iff_prefix] at ha hb
  rcases List.prefix_or_prefix_of_prefix ha hb with h | h
  · exact h1 h
  · exact h2 h

/-- C2 (amended): deleting key K from queue q removes exactly the storage
entries whose key has prefix bytes K, removes the per-key hub entry of K,
leaves the queue-wide channel of an existing hub entry unchanged (creating a
fresh hub entry when none existed), and, for any key K' with neither key a
byte-prefix of the other, leaves the persisted events with prefix K' (and, when
the tree exists, a First replay of K') unchanged. -/
theorem C2_delete_frame (s : QueueState) (q K K' : Key)
    (h1 : ¬ K <+: K') (h2 : ¬ K' <+: K) :
    (delete_queue s q K).2 = .ok () ∧
    prefixScan (treeOf (delete_queue s q K).1 q) K = [] ∧
    key_hub_lookup (delete_queue s q K).1 q K = none ∧
    (alookup (delete_queue s q K).1.queue_meta q).isSome = true ∧
    (∀ h, alookup s.queue_meta q = some h →
      ∃ h', alookup (delete_queue s q K).1.queue_meta q = some h' ∧ h'.sent = h.sent) ∧
    prefixScan (treeOf (delete_queue s q K).1 q) K' = prefixScan (treeOf s q) K' ∧
    (q ∈ s.trees →
      (subscribe_queue_by_id (delete_queue s q K).1 q K' (some .First)).2 =
        (subscribe_queue_by_id s q K' (some .First)).2) := by
  have hdel := delete_spec s q K
  have hs'data : (delete_queue s q K).1.data =
      aset s.data q ((treeOf s q).filter
        (fun p => decide (p.1 ∉ (prefixScan (treeOf s q) K).map Prod.fst))) := by
    rw [hdel]
  have hs'qm : (delete_queue s q K).1.queue_meta =
      hub_remove_key (ensure_queue_broadcast s.queue_meta q) q K := by
    rw [hdel]
  have hs'trees : (delete_queue s q K).1.trees =
      if q ∈ s.trees then s.trees else q :: s.trees := by
    rw [hdel]
  have htq : treeOf (delete_queue s q K).1 q =
      (treeOf s q).filter
        (fun p => decide (p.1 ∉ (prefixScan (treeOf s q) K).map Prod.fst)) := by
    rw [treeOf, hs'data, alookup_aset_self]
    rfl
  have hmem_removals : ∀ p : Key × Event, p ∈ treeOf s q →
      List.isPrefixOf K p.1 = true → p.1 ∈ (prefixScan (treeOf s q) K).map Prod.fst := by
    intro p hp hpre
    exact List.mem_map.mpr ⟨p, List.mem_filter.mpr ⟨hp, hpre⟩, rfl⟩
  refine ⟨by rw [hdel], ?_, ?_, ?_, ?_, ?_, ?_⟩
  · rw [htq]
    unfold prefixScan
    rw [List.filter_filter]
    refine List.filter_eq_nil_iff.mpr ?_
    intro p hp
    intro hcontra
    rw [Bool.and_eq_true, decide_eq_true_eq] at hcontra
    exact hcontra.2 (hmem_removals p hp hcontra.1)
  · rw [key_hub_lookup, hs'qm]
    rcases alookup_ensure_cases s.queue_meta q with ⟨h0, he⟩ | ⟨hb, h0, he⟩ <;>
      simp [hub_remove_key, he, alookup_aset_self, alookup_aremove_self]
  · rw [hs'qm]
    rcases alookup_ensure_cases s.queue_meta q with ⟨h0, he⟩ | ⟨hb, h0, he⟩ <;>
      simp [hub_remove_key, he, alookup_aset_self]
  · intro h hh
    rw [hs'qm, hub_remove_key, ensure_of_some hh, hh]
    exact ⟨{ h with keys := aremove h.keys K }, alookup_aset_self _ _ _, rfl⟩
  · rw [htq]
    unfold prefixScan
    rw [List.filter_filter]
    refine List.filter_congr ?_
    intro p hp
    rw [Bool.and_iff_left_iff_imp]
    intro hpre
    rw [decide_eq_true_eq]
    intro hrem
    obtain ⟨p₂, hp₂, hfst⟩ := List.mem_map.mp hrem
    have hpreK : List.isPrefixOf K p.1 = true := by
      rw [← hfst]
      exact (List.mem_filter.mp hp₂).2
    exact not_prefix_both h1 h2 hpreK hpre
  · intro hq
    have hcheck : check_tree_exists s q = true := check_true_iff.mpr hq
    have hcheck' : check_tree_exists (delete_queue s q K).1 q = true := by
      rw [check_tree_exists, hs'trees, if_pos hq]
      exact hcheck
    rw [subscribe_by_id_snd K' (some .First) hcheck',
        subscribe_by_id_snd K' (some .First) hcheck]
    have hscan : prefixScan (treeOf (delete_queue s q K).1 q) K' =
        prefixScan (treeOf s q) K' := by
      rw [htq]
      unfold prefixScan
      rw [List.filter_filter]
      refine List.filter_congr ?_
      intro p hp
      rw [Bool.and_iff_left_iff_imp]
      intro hpre
      rw [decide_eq_true_eq]
      intro hrem
      obtain ⟨p₂, hp₂, hfst⟩ := List.mem_map.mp hrem
      have hpreK : List.isPrefixOf K p.1 = true := by
        rw [← hfst]
        exact (List.mem_filter.mp hp₂).2
      exact not_prefix_both h1 h2 hpreK hpre
    simp [get_prev_items, extract_sequences, hscan]

/-- An event persisted under key a. -/
def c2_evA : Event := { id := [97], sequence := some 1, last := false, body := [65] }

/-- An event persisted under key ab, whose byte string extends that of key a. -/
def c2_evAB : Event := { id := [97, 98], sequence := some 1, last := false, body := [66] }

/-- Queue q holding one event of key a and one of key ab, with no hub entry. -/
def c2_state : QueueState :=
  { trees := [[113]],
    data := [([113], [(get_id [97] 1, c2_evA), (get_id [97, 98] 1, c2_evAB)])],
    counters := [], queue_meta := [], max_key_updates := none }

/-- C2 (counterexample): deleting key a from c2_state also removes the
persisted event of the different key ab (its storage keys extend bytes a), so
the events of K' = ab are not unchanged; and the queue-wide hub entry, absent
beforehand, exists afterwards, so it is not unchanged either. -/
theorem C2_counterexample :
    (get_id [97, 98] 1, c2_evAB) ∈ treeOf c2_state [113] ∧
    alookup c2_state.queue_meta [113] = none ∧
    prefixScan (treeOf (delete_queue c2_state [113] [97]).1 [113]) [97, 98] = [] ∧
    (alookup (delete_queue c2_state [113] [97]).1.queue_meta [113]).isSome = true :=
  ⟨by decide, rfl, rfl, rfl⟩

theorem C2_delete_frame_witness :
    (delete_queue c2_state [113] [97]).2 = .ok () ∧
    prefixScan (treeOf (delete_queue c2_state [113] [97]).1 [113]) [97] = [] ∧
    key_hub_lookup (delete_queue c2_state [113] [97]).1 [113] [97] = none ∧
    (alookup (delete_queue c2_state [113] [97]).1.queue_meta [113]).isSome = true ∧
    (∀ h, alookup c2_state.queue_meta [113] = some h →
      ∃ h', alookup (delete_queue c2_state [113] [97]).1.queue_meta [113] = some h' ∧
        h'.sent = h.sent) ∧
    prefixScan (treeOf (delete_queue c2_state [113] [97]).1 [113]) [98] =
      prefixScan (treeOf c2_state [113]) [98] ∧
    ([113] ∈ c2_state.trees →
      (subscribe_queue_by_id (delete_queue c2_state [113] [97]).1 [113] [98]
          (some .First)).2 =
        (subscribe_queue_by_id c2_state [113] [98] (some .First)).2) :=
  C2_delete_frame c2_state [113] [97] [98] (by decide) (by decide)

/-! C6: the Id(s) replay range scan. -/

/-- Shape of a well-formed stored entry of key k: the value carries a positive
u64 sequence and the storage key is the composite key for that sequence. -/
def key_shape (k : Key) (p : Key × Event) : Bool :=
  match p.2.sequence with
  | some n => decide (0 < n) && decide (n < u64size) && decide (p.1 = get_id k n)
  | none => false

theorem key_shape_spec {k : Key} {p : Key × Event} (h : key_shape k p = true) :
    ∃ n, 0 < n ∧ n < u64size ∧ p.2.sequence = some n ∧ p.1 = get_id k n := by
  unfold key_shape at h
  cases hs : p.2.sequence with
  | none => rw [hs] at h; cases h
  | some n =>
    rw [hs] at h
    simp only [Bool.and_eq_true, decide_eq_true_eq] at h
    exact ⟨n, h.1.1, h.1.2, rfl, h.2⟩

theorem subscribe_by_id_fst {s : QueueState} {q : Key} (id : Key) (rs : RequestSequence)
    (h : check_tree_exists s q = true) :
    (subscribe_queue_by_id s q id rs).1 =
      hub_ensure_key { s with queue_meta := ensure_queue_broadcast s.queue_meta q } q id := by
  simp [subscribe_queue_by_id, h]

theorem key_hub_ensure_key (s : QueueState) (q id : Key) :
    (key_hub_lookup (hub_ensure_key s q id) q id).isSome = true := by
  rcases alookup_ensure_cases s.queue_meta q with ⟨h0, he⟩ | ⟨hb, h0, he⟩
  · simp [hub_ensure_key, he, key_hub_lookup, alookup, alookup_aset_self]
  · cases hk : alookup hb.keys id <;>
      simp [hub_ensure_key, he, hk, key_hub_lookup, alookup_aset_self]

/-- C6 (amended): on a queue whose tree stores only well-formed entries of key
k, the Id(sq) replay preloads exactly the persisted events of k whose sequence
lies in the half-open range from sq up to but excluding u64 MAX (the code scans
the storage range bytes k ++ be64 sq up to bytes k ++ be64 MAX, end exclusive),
in strictly increasing sequence order; the preload count matches, and a live
per-key receiver is attached even when the historical part is empty. -/
theorem C6_id_replay (s : QueueState) (q k : Key) (sq : Nat)
    (htree : check_tree_exists s q = true)
    (hsorted : TreeSorted (treeOf s q))
    (hkeys : ∀ p ∈ treeOf s q, key_shape k p = true)
    (hsq0 : 0 < sq) (hsqlt : sq < u64size) :
    (subscribe_queue_by_id s q k (some (.Id sq))).2 =
      .ok { stream := some (some (set_last_on_last
              ((extract_sequences (treeOf s q) (.Id sq) k).map Prod.snd))),
            preloaded_count :=
              some ((extract_sequences (treeOf s q) (.Id sq) k).map Prod.snd).length } ∧
    (∀ e : Event, e ∈ (extract_sequences (treeOf s q) (.Id sq) k).map Prod.snd ↔
      ∃ n, e.sequence = some n ∧ sq ≤ n ∧ n < u64MAX ∧ (get_id k n, e) ∈ treeOf s q) ∧
    List.Pairwise (· < ·)
      (((extract_sequences (treeOf s q) (.Id sq) k).map Prod.snd).map
        (fun e => e.sequence.getD 0)) ∧
    (key_hub_lookup (subscribe_queue_by_id s q k (some (.Id sq))).1 q k).isSome = true := by
  have hMAXlt : u64MAX < u64size := by norm_num [u64MAX, u64size]
  have hpred : ∀ p ∈ treeOf s q, ∀ n, 0 < n → n < u64size → p.2.sequence = some n →
      p.1 = get_id k n →
      ((keyLe (get_id k sq) p.1 && keyLt p.1 (get_id k u64MAX)) = true ↔
        sq ≤ n ∧ n < u64MAX) := by
    intro p _ n _ hn hs hk1
    rw [hk1, Bool.and_eq_true, keyLe_get_id hsqlt hn, get_id_lt hn hMAXlt]
  refine ⟨?_, ?_, ?_, ?_⟩
  · rw [subscribe_by_id_snd k (some (.Id sq)) htree]
    simp [get_prev_items, set_last_length]
  · intro e
    constructor
    · intro he
      obtain ⟨p, hp, hpe⟩ := List.mem_map.mp he
      have hpmem := (List.mem_filter.mp hp).1
      have hcond := (List.mem_filter.mp hp).2
      obtain ⟨n, hn0, hnlt, hnseq, hnkey⟩ := key_shape_spec (hkeys p hpmem)
      have hiff := hpred p hpmem n hn0 hnlt hnseq hnkey
      rw [hiff] at hcond
      refine ⟨n, ?_, hcond.1, hcond.2, ?_⟩
      · rw [← hpe]; exact hnseq
      · have : p = (get_id k n, e) := by
          cases p
          simp only at hnkey hpe
          rw [hnkey, hpe]
        rw [← this]
        exact hpmem
    · rintro ⟨n, hseq, hge, hlt, hmem⟩
      refine List.mem_map.mpr ⟨(get_id k n, e), ?_, rfl⟩
      refine List.mem_filter.mpr ⟨hmem, ?_⟩
      obtain ⟨n', hn0', hnlt', hnseq', hnkey'⟩ := key_shape_spec (hkeys _ hmem)
      simp only at hnseq' hnkey'
      have hnn : n' = n := by
        rw [hseq] at hnseq'
        injection hnseq' with hinj
        exact hinj.symm
      rw [hnn] at hn0' hnlt'
      rw [Bool.and_eq_true, keyLe_get_id hsqlt hnlt', get_id_lt hnlt' hMAXlt]
      exact ⟨hge, hlt⟩
  · have hsortF : TreeSorted (extract_sequences (treeOf s q) (.Id sq) k) :=
      List.Pairwise.filter _ hsorted
    have hsubl : (extract_sequences (treeOf s q) (.Id sq) k).Sublist (treeOf s q) :=
      List.filter_sublist _
    rw [List.map_map, List.pairwise_map]
    refine List.Pairwise.imp_of_mem ?_ hsortF
    intro p₁ p₂ hm₁ hm₂ hlt
    obtain ⟨n₁, h₁0, h₁lt, h₁seq, h₁key⟩ := key_shape_spec (hkeys p₁ (hsubl.mem hm₁))
    obtain ⟨n₂, h₂0, h₂lt, h₂seq, h₂key⟩ := key_shape_spec (hkeys p₂ (hsubl.mem hm₂))
    rw [h₁key, h₂key, get_id_lt h₁lt h₂lt] at hlt
    show (p₁.2.sequence.getD 0) < (p₂.2.sequence.getD 0)
    rw [h₁seq, h₂seq]
    exact hlt
  · rw [subscribe_by_id_fst k (some (.Id sq)) htree]
    exact key_hub_ensure_key _ q k

/-- An event of key a stored with the largest u64 sequence. -/
def c6_evA : Event := { id := [97], sequence := some u64MAX, last := false, body := [65] }

/-- An event of the different key ab with sequence one. -/
def c6_evAB : Event := { id := [97, 98], sequence := some 1, last := false, body := [66] }

/-- Queue q storing the two events; the ab entry sorts before the a entry. -/
def c6_state : QueueState :=
  { trees := [[113]],
    data := [([113], [(get_id [97, 98] 1, c6_evAB), (get_id [97] u64MAX, c6_evA)])],
    counters := [], queue_meta := [], max_key_updates := none }

/-- C6 (counterexample): the Id(1) replay of key a on c6_state preloads exactly
one event, and that event belongs to key ab, not a; while the persisted key-a
event with sequence u64 MAX (which is at least one) is not preloaded.  So the
replay is not exactly the persisted events of key a with sequence at least s. -/
theorem C6_counterexample :
    (get_id [97] u64MAX, c6_evA) ∈ treeOf c6_state [113] ∧
    (subscribe_queue_by_id c6_state [113] [97] (some (.Id 1))).2 =
      .ok { stream := some (some [{ c6_evAB with last := true }]),
            preloaded_count := some 1 } ∧
    ({ c6_evAB with last := true } : Event).id = [97, 98] ∧
    c6_evA.sequence = some u64MAX ∧ 1 ≤ u64MAX ∧
    (c6_evA ∈ (extract_sequences (treeOf c6_state [113]) (.Id 1) [97]).map Prod.snd →
      False) :=
  ⟨by decide, rfl, rfl, rfl, by decide, by decide⟩

/-- Two well-formed stored events of key a with sequences one and two. -/
def c6w_ev1 : Event := { id := [97], sequence := some 1, last := false, body := [49] }

def c6w_ev2 : Event := { id := [97], sequence := some 2, last := false, body := [50] }

/-- Queue q storing only well-formed entries of key a. -/
def c6w_state : QueueState :=
  { trees := [[113]],
    data := [([113], [(get_id [97] 1, c6w_ev1), (get_id [97] 2, c6w_ev2)])],
    counters := [], queue_meta := [], max_key_updates := none }

theorem C6_id_replay_witness :
    (subscribe_queue_by_id c6w_state [113] [97] (some (.Id 2))).2 =
      .ok { stream := some (some (set_last_on_last
              ((extract_sequences (treeOf c6w_state [113]) (.Id 2) [97]).map Prod.snd))),
            preloaded_count :=
              some ((extract_sequences (treeOf c6w_state [113]) (.Id 2) [97]).map
                Prod.snd).length } ∧
    (∀ e : Event, e ∈ (extract_sequences (treeOf c6w_state [113]) (.Id 2) [97]).map
        Prod.snd ↔
      ∃ n, e.sequence = some n ∧ 2 ≤ n ∧ n < u64MAX ∧
        (get_id [97] n, e) ∈ treeOf c6w_state [113]) ∧
    List.Pairwise (· < ·)
      (((extract_sequences (treeOf c6w_state [113]) (.Id 2) [97]).map Prod.snd).map
        (fun e => e.sequence.getD 0)) ∧
    (key_hub_lookup (subscribe_queue_by_id c6w_state [113] [97]
        (some (.Id 2))).1 [113] [97]).isSome = true :=
  C6_id_replay c6w_state [113] [97] 2 (by decide) (by decide) (by decide)
    (by decide) (by decide)
